import Mathlib

/-!
# Verification of the git-sexp core (keykapp-playground)

A shallow embedding of the repository's git-backed S-expression layer
(`src/unnamed/part_000`): the Sexp codec (`jsSexpToGitSexp` /
`gitSexpToJsSexp`), the lazy tree reader (`readGitSexpExpression` and its
helpers), the list builders (`stringArrayToConsList` /
`consListToStringArray` / `consStringOntoGitSexpExpression`) and the
history manager (`setupGitSexpRepo`, `updateBranchHead`,
`loadHistoryGitSexpList`).

The underlying object store (isomorphic-git) is the external collaborator
described in the spec's "Object Store Adapter" section; it is modelled as
deterministic, injective content addressing: an object id is a free term
of the object's content, so equal content gives equal ids and distinct
content gives distinct ids, writes are idempotent inserts into the set of
stored objects, and reads return the content determined by the id when the
object is present.
-/

/-- Errors of the layer, named as in the spec's error-handling section.
The TypeScript source throws untyped `Error`s; the mapping is:
`notFound` for a read of an absent object, `invalidObject` for
"OID ... is not a valid Git Sexp Cons" / "OID does not point directly to a
blob" (and for isomorphic-git's failure when `readTree` hits a non-tree),
`notAProperList` for "Invalid JsSexp type ..." in `consListToStringArray`,
`lineNotFound` for `resolveRef` on a missing branch. -/
inductive GitErr where
  | notFound
  | invalidObject
  | notAProperList
  | lineNotFound
deriving DecidableEq, Repr

mutual
/-- Modelled from the spec: content-addressed object ids of the store
adapter (`write_leaf` / `write_composite` are deterministic injective
content hashing), so an id is represented by the content it addresses:
a blob id by the blob's bytes (a string), a tree id by the ordered list
of its entries. -/
inductive Oid where
  | blob : String → Oid
  | tree : EntryList → Oid
deriving DecidableEq, Repr
/-- An ordered list of git tree entries: each entry has a path, a mode
(such as "100644" or "040000"), a type ("blob" or "tree") and the child's
oid, exactly the fields the source passes to `git.writeTree` and reads
back from `git.readObject` / `git.readTree`. -/
inductive EntryList where
  | nil : EntryList
  | cons (path mode ty : String) (oid : Oid) (rest : EntryList) : EntryList
deriving DecidableEq, Repr
end

/-- A single parsed tree entry, as returned by looking a path up in a
tree's entry list (the source's `TreeEntry`). -/
structure TreeEntry where
  path : String
  mode : String
  ty : String
  oid : Oid
deriving DecidableEq, Repr

/-- `GitSexpEmptyValue.oid`: the fixed oid of the empty tree
('4b825dc642cb6eb9a060e54bf8d69288fbee4904' in the source); in the
content-addressed model it is the tree with no entries. -/
def emptyOid : Oid := Oid.tree EntryList.nil

/-- Number of entries of a tree (`tree.length` in the source). -/
def entryLen : EntryList → Nat
  | EntryList.nil => 0
  | EntryList.cons _ _ _ _ rest => entryLen rest + 1

/-- `tree.some((entry) => entry.path === p)` in the source. -/
def hasPath (p : String) : EntryList → Bool
  | EntryList.nil => false
  | EntryList.cons q _ _ _ rest => q == p || hasPath p rest

/-- `tree.find((entry) => entry.path === p)` in the source. -/
def findPath (p : String) : EntryList → Option TreeEntry
  | EntryList.nil => none
  | EntryList.cons q m t o rest =>
      if q == p then some ⟨q, m, t, o⟩ else findPath p rest

mutual
/-- Depth of an oid's content tree: an upper bound on the recursion depth
of a traversal that follows tree entries.  Content addressing makes every
stored structure a finite DAG, which this free-term representation
captures: children are strict subterms. -/
def oidDepth : Oid → Nat
  | Oid.blob _ => 1
  | Oid.tree es => entryDepth es + 1
/-- Maximal `oidDepth` over the oids of an entry list. -/
def entryDepth : EntryList → Nat
  | EntryList.nil => 0
  | EntryList.cons _ _ _ o rest => max (oidDepth o) (entryDepth rest)
end

/-- `JsSexp = null | string | [JsSexp, JsSexp]` from the source: the
finite acyclic values of the codec. -/
inductive JsSexp where
  | null : JsSexp
  | atom : String → JsSexp
  | cons : JsSexp → JsSexp → JsSexp
deriving DecidableEq, Repr

/-- `GitSexpExpression = GitSexpAtom | GitSexpCons | GitSexpEmpty` from the
source.  `empty` carries no oid field because the source's
`GitSexpEmptyValue` pins it to the literal empty-tree constant. -/
inductive GitSexpExpression where
  | empty : GitSexpExpression
  | atom (value : String) (oid : Oid) : GitSexpExpression
  | cons (car cdr : GitSexpExpression) (oid : Oid) : GitSexpExpression
deriving DecidableEq, Repr

/-- The `.oid` field of a `GitSexpExpression` (for `empty` the fixed
`GitSexpEmptyValue.oid`). -/
def oidOf : GitSexpExpression → Oid
  | GitSexpExpression.empty => emptyOid
  | GitSexpExpression.atom _ o => o
  | GitSexpExpression.cons _ _ o => o

/-- `GitSexpExpressionLazy` from the source: car/cdr present only as
id + kind until resolved; `consLazy none none` is a composite child whose
own children have not been listed yet. -/
inductive GitSexpExpressionLazy where
  | empty : GitSexpExpressionLazy
  | atomLazy (oid : Oid) : GitSexpExpressionLazy
  | consLazy (car cdr : Option GitSexpExpressionLazy) (oid : Oid) :
      GitSexpExpressionLazy

/-- The oid carried by a lazy expression. -/
def lazyOidOf : GitSexpExpressionLazy → Oid
  | GitSexpExpressionLazy.empty => emptyOid
  | GitSexpExpressionLazy.atomLazy o => o
  | GitSexpExpressionLazy.consLazy _ _ o => o

/-- `HISTORY_BRANCH` from the source. -/
def HISTORY_BRANCH : String := "history"

mutual
/-- Modelled from the spec: a history record id (`append_record` of the
store adapter).  A commit id is a free term of the commit's content
(tree, parents, message), matching deterministic content addressing of
commit objects. -/
inductive CommitOid where
  | mk (tree : Oid) (parents : CommitParents) (message : String) : CommitOid
deriving DecidableEq, Repr
/-- The (ordered) parent list of a commit, as passed to `git.commit`'s
`parent` argument. -/
inductive CommitParents where
  | nil : CommitParents
  | cons (p : CommitOid) (rest : CommitParents) : CommitParents
deriving DecidableEq, Repr
end

/-- The `tree` field of a commit (`headCommit.commit.tree`). -/
def commitTree : CommitOid → Oid
  | CommitOid.mk t _ _ => t

/-- The parent list of a commit. -/
def commitParents : CommitOid → CommitParents
  | CommitOid.mk _ ps _ => ps

/-- Number of parents of a commit's parent list. -/
def parentsLen : CommitParents → Nat
  | CommitParents.nil => 0
  | CommitParents.cons _ rest => parentsLen rest + 1

/-- The repository state the source manipulates through isomorphic-git:
the branch HEAD points at (`head`), the branch → commit map (`branches`),
the set of stored loose blob/tree objects (`objects`, content-addressed,
so a list of oids), and the config entries (`config`). -/
structure GitRepo where
  head : String
  branches : List (String × CommitOid)
  objects : List Oid
  config : List (String × String)
deriving DecidableEq, Repr

deriving instance DecidableEq for Except

/-- A repository state before `git.init`: no branches, no objects. -/
def initialGitRepo : GitRepo := ⟨"", [], [], []⟩

/-- Modelled from the spec: writing an object into the content-addressed
store; writing content that is already present is a no-op
(deduplication). -/
def addObject (oid : Oid) (r : GitRepo) : GitRepo :=
  if oid ∈ r.objects then r else { r with objects := oid :: r.objects }

/-- `git.writeBlob`: store the bytes, return their content hash. -/
def writeBlob (s : String) (r : GitRepo) : Oid × GitRepo :=
  (Oid.blob s, addObject (Oid.blob s) r)

/-- `git.writeTree`: store the entry list, return its content hash. -/
def writeTree (es : EntryList) (r : GitRepo) : Oid × GitRepo :=
  (Oid.tree es, addObject (Oid.tree es) r)

/-- `git.readObject`: in the content-addressed model an oid determines its
object's content, so a successful read returns the oid itself as the
parsed view; an absent object fails with `notFound`. -/
def readObject (store : List Oid) (oid : Oid) : Except GitErr Oid :=
  if oid ∈ store then Except.ok oid else Except.error GitErr.notFound

/-- `git.listBranches`. -/
def listBranches (r : GitRepo) : List String := r.branches.map Prod.fst

/-- `git.resolveRef` on a branch name; isomorphic-git fails with a
not-found error when the ref is absent (`LineNotFound` in the spec). -/
def resolveRef (ref : String) (r : GitRepo) : Except GitErr CommitOid :=
  match r.branches.find? (fun b => b.1 == ref) with
  | some b => Except.ok b.2
  | none => Except.error GitErr.lineNotFound

/-- Update or create a branch entry. -/
def setBranch (name : String) (c : CommitOid)
    (bs : List (String × CommitOid)) : List (String × CommitOid) :=
  if bs.any (fun b => b.1 == name) then
    bs.map (fun b => if b.1 == name then (name, c) else b)
  else bs ++ [(name, c)]

/-- `git.commit` with an explicit `tree` and `parent`: creates the commit
record and advances the current branch (the branch HEAD points at) to it,
creating the branch if it does not exist yet.  Commit objects are
content-addressed records kept by the store adapter (`append_record`), so
the state only tracks the branch move. -/
def gitCommit (tree : Oid) (parents : CommitParents) (message : String)
    (r : GitRepo) : CommitOid × GitRepo :=
  let c := CommitOid.mk tree parents message
  (c, { r with branches := setBranch r.head c r.branches })

/-- `git.readCommit`: a commit id determines its record's content
(`read_record` of the spec's adapter). -/
def readCommit (c : CommitOid) : Oid × CommitParents × String :=
  match c with
  | CommitOid.mk t ps m => (t, ps, m)

/-- `git.init` with `defaultBranch: HISTORY_BRANCH`: idempotent; the
repository exists afterwards with HEAD pointing at the history branch
(born or unborn).  Existing branches, objects and config are kept. -/
def gitInit (r : GitRepo) : GitRepo := { r with head := HISTORY_BRANCH }

/-- `git.setConfig`: set `path` to `value`, overwriting an existing
entry. -/
def setConfig (path value : String) (r : GitRepo) : GitRepo :=
  { r with config :=
      if r.config.any (fun kv => kv.1 == path) then
        r.config.map (fun kv => if kv.1 == path then (path, value) else kv)
      else r.config ++ [(path, value)] }

/-- `isRepoEmpty` from the source. -/
def isRepoEmpty (r : GitRepo) : Bool := (listBranches r).length == 0

/-- `setupGitSexpRepo` from the source: init, set config, and if the repo
has no branches yet, commit the empty tree as the bootstrap record. -/
def setupGitSexpRepo (r : GitRepo) : GitRepo :=
  let r1 := gitInit r
  let r2 := setConfig "gc.auto" "0" r1
  let r3 := setConfig "user.name" "GitSexp" r2
  let r4 := setConfig "user.email" "git-sexp@localhost" r3
  if isRepoEmpty r4 then
    (gitCommit emptyOid CommitParents.nil "Initial commit" r4).2
  else r4

/-- `updateBranchHead` from the source: resolve the current tip of the
history branch, then commit the list's oid as the tree of a new commit
whose single parent is that tip. -/
def updateBranchHead (sexpList : GitSexpExpression) (r : GitRepo) :
    Except GitErr GitRepo :=
  match resolveRef HISTORY_BRANCH r with
  | Except.error e => Except.error e
  | Except.ok headCommitOid =>
      Except.ok (gitCommit (oidOf sexpList)
        (CommitParents.cons headCommitOid CommitParents.nil)
        "Append messages" r).2

/-- `stringArrayToConsList` from the source.  JavaScript's
`Array.prototype.reverse` reverses the array IN PLACE and returns it, so
the model returns both the built list (the reversed array folded into
nested pairs) and the array's content after the call — the caller-visible
state of the argument array. -/
def stringArrayToConsList (strings : List String) :
    JsSexp × List String :=
  let reversed := strings.reverse
  (reversed.foldl (fun list str => JsSexp.cons (JsSexp.atom str) list)
    JsSexp.null, reversed)

/-- `consListToStringArray` from the source: empty gives `[]`, a bare atom
gives a one-element array, a cons whose car is an atom prepends it to the
flattened cdr, and anything else throws (`notAProperList`). -/
def consListToStringArray : JsSexp → Except GitErr (List String)
  | JsSexp.null => Except.ok []
  | JsSexp.atom s => Except.ok [s]
  | JsSexp.cons (JsSexp.atom car) cdr =>
      match consListToStringArray cdr with
      | Except.ok rest => Except.ok (car :: rest)
      | Except.error e => Except.error e
  | JsSexp.cons _ _ => Except.error GitErr.notAProperList

/-- `gitSexpToJsSexp` from the source: Empty → null, Atom → its value,
Cons → the pair of the decoded car and cdr.  (The source's final `throw`
branch is unreachable: the union type has exactly these three shapes.) -/
def gitSexpToJsSexp : GitSexpExpression → JsSexp
  | GitSexpExpression.empty => JsSexp.null
  | GitSexpExpression.atom v _ => JsSexp.atom v
  | GitSexpExpression.cons a d _ =>
      JsSexp.cons (gitSexpToJsSexp a) (gitSexpToJsSexp d)

/-- The `getTypeAndMode` helper of `writeGitSexpCons`: empty → tree/040000,
atom → blob/100644, cons → tree/040000.  Returns (type, mode). -/
def getTypeAndMode : GitSexpExpression → String × String
  | GitSexpExpression.empty => ("tree", "040000")
  | GitSexpExpression.atom _ _ => ("blob", "100644")
  | GitSexpExpression.cons _ _ _ => ("tree", "040000")

/-- The two-entry tree `writeGitSexpCons` passes to `git.writeTree`:
a "car" entry then a "cdr" entry, each with the child's mode, type and
oid. -/
def consTreeEntries (car cdr : GitSexpExpression) : EntryList :=
  EntryList.cons "car" (getTypeAndMode car).2 (getTypeAndMode car).1
    (oidOf car)
    (EntryList.cons "cdr" (getTypeAndMode cdr).2 (getTypeAndMode cdr).1
      (oidOf cdr) EntryList.nil)

/-- `writeGitSexpAtom` from the source: write the string as a blob and
return the atom with its oid. -/
def writeGitSexpAtom (s : String) (r : GitRepo) :
    GitSexpExpression × GitRepo :=
  let res := writeBlob s r
  (GitSexpExpression.atom s res.1, res.2)

/-- `writeGitSexpCons` from the source: write the two-entry car/cdr tree
and return the cons with its oid. -/
def writeGitSexpCons (car cdr : GitSexpExpression) (r : GitRepo) :
    GitSexpExpression × GitRepo :=
  let res := writeTree (consTreeEntries car cdr) r
  (GitSexpExpression.cons car cdr res.1, res.2)

/-- `jsSexpToGitSexp` from the source: null → Empty, string → write an
atom, pair → recursively encode car then cdr, then write the cons. -/
def jsSexpToGitSexp : JsSexp → GitRepo → GitSexpExpression × GitRepo
  | JsSexp.null, r => (GitSexpExpression.empty, r)
  | JsSexp.atom s, r => writeGitSexpAtom s r
  | JsSexp.cons a d, r =>
      let resA := jsSexpToGitSexp a r
      let resD := jsSexpToGitSexp d resA.2
      writeGitSexpCons resA.1 resD.1 resD.2

/-- `consStringOntoGitSexpExpression` from the source: write the string as
an atom, then write the cons with that atom as car and the given
expression as cdr. -/
def consStringOntoGitSexpExpression (s : String) (sexp : GitSexpExpression)
    (r : GitRepo) : GitSexpExpression × GitRepo :=
  let resAtom := writeGitSexpAtom s r
  writeGitSexpCons resAtom.1 sexp resAtom.2

/-- Pure shadow of `jsSexpToGitSexp`: the returned expression does not
depend on the repository state (content addressing), only the written
objects do. -/
def encodeP : JsSexp → GitSexpExpression
  | JsSexp.null => GitSexpExpression.empty
  | JsSexp.atom s => GitSexpExpression.atom s (Oid.blob s)
  | JsSexp.cons a d =>
      let ea := encodeP a
      let ed := encodeP d
      GitSexpExpression.cons ea ed (Oid.tree (consTreeEntries ea ed))

/-- `isValidGitSexpAtomObject` from the source: the object is a blob (the
format check always passes in the model, where reads return fully parsed
content). -/
def isValidGitSexpAtomObject : Oid → Bool
  | Oid.blob _ => true
  | Oid.tree _ => false

/-- `isValidGitSexpConsObject` from the source: the object is a tree with
exactly two entries, one with path "car" and one with path "cdr" (the
source checks presence with `Array.prototype.some`, so it does NOT
constrain the order of the two entries). -/
def isValidGitSexpConsObject (objectInfo : Oid) (tree : EntryList) :
    Bool :=
  match objectInfo with
  | Oid.blob _ => false
  | Oid.tree _ =>
      entryLen tree == 2 && (hasPath "car" tree && hasPath "cdr" tree)

/-- `isGitSexpAtomOid` from the source: read the object and validate it as
an atom; any read failure is caught and gives `false`. -/
def isGitSexpAtomOid (store : List Oid) (oid : Oid) : Bool :=
  match readObject store oid with
  | Except.ok objectInfo => isValidGitSexpAtomObject objectInfo
  | Except.error _ => false

/-- `readGitSexpAtom` from the source: read the object, and if it is a
valid atom blob return the atom with the blob's string content; otherwise
throw ("OID does not point directly to a blob"). -/
def readGitSexpAtom (store : List Oid) (oid : Oid) :
    Except GitErr GitSexpExpression :=
  match readObject store oid with
  | Except.error e => Except.error e
  | Except.ok objectInfo =>
      match objectInfo with
      | Oid.blob s => Except.ok (GitSexpExpression.atom s oid)
      | Oid.tree _ => Except.error GitErr.invalidObject

/-- The child classification inside `readGitSexpConsLazy`: the empty-tree
oid → Empty, a blob entry → a lazy atom, anything else → a lazy cons whose
own children are not yet listed. -/
def classifyEntry (entry : TreeEntry) : GitSexpExpressionLazy :=
  if entry.oid = emptyOid then GitSexpExpressionLazy.empty
  else if entry.ty == "blob" then GitSexpExpressionLazy.atomLazy entry.oid
  else GitSexpExpressionLazy.consLazy none none entry.oid

/-- `readGitSexpConsLazy` from the source: read the object (a non-tree
makes the fallback `git.readTree` fail, mapped to `invalidObject`),
validate the two-entry car/cdr shape, look the "car" and "cdr" entries up
and classify each child by its entry's kind.  The `none, none` branch of
the final match is unreachable: validation guarantees both lookups
succeed (the source expresses this with a type cast). -/
def readGitSexpConsLazy (store : List Oid) (oid : Oid) :
    Except GitErr GitSexpExpressionLazy :=
  match readObject store oid with
  | Except.error e => Except.error e
  | Except.ok objectInfo =>
      match objectInfo with
      | Oid.blob _ => Except.error GitErr.invalidObject
      | Oid.tree tree =>
          if isValidGitSexpConsObject (Oid.tree tree) tree then
            match findPath "car" tree, findPath "cdr" tree with
            | some carEntry, some cdrEntry =>
                Except.ok (GitSexpExpressionLazy.consLazy
                  (some (classifyEntry carEntry))
                  (some (classifyEntry cdrEntry)) oid)
            | _, _ => Except.error GitErr.invalidObject
          else Except.error GitErr.invalidObject

/-- `readGitSexpExpression` from the source, with an explicit fuel
parameter bounding the recursion depth (`none` = fuel exhausted): the
empty-tree oid → Empty; a valid atom oid → the atom; otherwise read the
cons lazily and recursively realize car and cdr (an absent lazy child —
impossible here, kept for faithfulness to `car || GitSexpEmptyValue` —
realizes to Empty). -/
def readFuel :
    Nat → List Oid → Oid → Option (Except GitErr GitSexpExpression)
  | 0, _, _ => none
  | fuel + 1, store, oid =>
      if oid = emptyOid then some (Except.ok GitSexpExpression.empty)
      else if isGitSexpAtomOid store oid then
        some (readGitSexpAtom store oid)
      else
        match readGitSexpConsLazy store oid with
        | Except.error e => some (Except.error e)
        | Except.ok (GitSexpExpressionLazy.consLazy carL cdrL _) =>
            match (match carL with
                   | some cl => readFuel fuel store (lazyOidOf cl)
                   | none => some (Except.ok GitSexpExpression.empty)) with
            | none => none
            | some (Except.error e) => some (Except.error e)
            | some (Except.ok car) =>
                match (match cdrL with
                       | some dl => readFuel fuel store (lazyOidOf dl)
                       | none =>
                           some (Except.ok GitSexpExpression.empty)) with
                | none => none
                | some (Except.error e) => some (Except.error e)
                | some (Except.ok cdr) =>
                    some (Except.ok
                      (GitSexpExpression.cons car cdr oid))
        | Except.ok _ => some (Except.error GitErr.invalidObject)

/-- `readGitSexpExpression` from the source: run the fuelled reader with
fuel `oidDepth oid`, which always suffices (theorem `read_terminates`
below), so the fallback value is never used. -/
def readGitSexpExpression (store : List Oid) (oid : Oid) :
    Except GitErr GitSexpExpression :=
  (readFuel (oidDepth oid) store oid).getD
    (Except.error GitErr.invalidObject)

/-- `loadHistoryGitSexpList` from the source: resolve the history tip,
read its commit, and realize the expression at the commit's tree oid. -/
def loadHistoryGitSexpList (r : GitRepo) :
    Except GitErr GitSexpExpression :=
  match resolveRef HISTORY_BRANCH r with
  | Except.error e => Except.error e
  | Except.ok headCommitOid =>
      readGitSexpExpression r.objects (readCommit headCommitOid).1

/-- Sequential `updateBranchHead` calls, one per list, stopping at the
first failure. -/
def appendAll : List GitSexpExpression → GitRepo → Except GitErr GitRepo
  | [], r => Except.ok r
  | l :: rest, r =>
      match updateBranchHead l r with
      | Except.error e => Except.error e
      | Except.ok r1 => appendAll rest r1

mutual
/-- The record chain reachable from a commit by following first parents:
the commit itself, then the chain of its first parent.  Content
addressing makes parent ids strict subterms, so the chain is finite by
construction. -/
def chainOf : CommitOid → List CommitOid
  | CommitOid.mk t ps m => CommitOid.mk t ps m :: chainOfParents ps
/-- The chain continued through a parent list (first parent only). -/
def chainOfParents : CommitParents → List CommitOid
  | CommitParents.nil => []
  | CommitParents.cons p _ => chainOf p
end

/-- The tip commit after appending the given lists, one commit per list,
starting from tip `c`. -/
def tipAfter (c : CommitOid) : List GitSexpExpression → CommitOid
  | [] => c
  | l :: rest =>
      tipAfter (CommitOid.mk (oidOf l)
        (CommitParents.cons c CommitParents.nil) "Append messages") rest

/-- Well-formedness of a realized expression: every oid field is the
content hash of the node it sits on — exactly what the write path
(`jsSexpToGitSexp` and the `write...` helpers) produces. -/
def wfExpr : GitSexpExpression → Bool
  | GitSexpExpression.empty => true
  | GitSexpExpression.atom v o => o == Oid.blob v
  | GitSexpExpression.cons a d o =>
      o == Oid.tree (consTreeEntries a d) && (wfExpr a && wfExpr d)

/-- The stored objects an expression's realization reads: the blob of
every atom and the tree of every cons (Empty needs no stored object). -/
def exprObjects : GitSexpExpression → List Oid
  | GitSexpExpression.empty => []
  | GitSexpExpression.atom _ o => [o]
  | GitSexpExpression.cons a d o => o :: (exprObjects a ++ exprObjects d)

/-- Modelled from the spec: a proper List is "a Cons chain whose
successive cdrs form a right-leaning spine terminated by Empty" with every
car an Atom; `to_sequence` "requires every car to be an Atom and the chain
to terminate in Empty".  This is the spec's notion, used to compare the
spec's claim about `to_sequence` with what `consListToStringArray`
actually accepts. -/
def specIsProperList : JsSexp → Bool
  | JsSexp.null => true
  | JsSexp.atom _ => false
  | JsSexp.cons (JsSexp.atom _) d => specIsProperList d
  | JsSexp.cons _ _ => false

/-- The inputs `consListToStringArray` accepts: chains of atom-car conses
terminated either by Empty or by a trailing Atom (the source's explicit
`isJsAtom` base case). -/
def atomCarChain : JsSexp → Bool
  | JsSexp.null => true
  | JsSexp.atom _ => true
  | JsSexp.cons (JsSexp.atom _) d => atomCarChain d
  | JsSexp.cons _ _ => false

/-- The string sequence `consListToStringArray` returns on accepted
inputs: the atom cars in order, with a trailing atom contributing a final
element. -/
def chainElems : JsSexp → List String
  | JsSexp.null => []
  | JsSexp.atom s => [s]
  | JsSexp.cons (JsSexp.atom c) d => c :: chainElems d
  | JsSexp.cons _ _ => []

/-- The records created by appending the given lists starting from tip
`c`, in append order. -/
def newRecs (c : CommitOid) : List GitSexpExpression → List CommitOid
  | [] => []
  | l :: rest =>
      CommitOid.mk (oidOf l) (CommitParents.cons c CommitParents.nil)
          "Append messages" ::
        newRecs (CommitOid.mk (oidOf l)
          (CommitParents.cons c CommitParents.nil) "Append messages") rest

/-- A concrete sample: the encoded two-element list ("A" "B"). -/
def sampleList : GitSexpExpression :=
  encodeP (JsSexp.cons (JsSexp.atom "A")
    (JsSexp.cons (JsSexp.atom "B") JsSexp.null))

/-- The bootstrap record `setupGitSexpRepo` creates: snapshot is the
empty tree, no predecessor. -/
def bootCommit : CommitOid :=
  CommitOid.mk emptyOid CommitParents.nil "Initial commit"

/-- A concrete initialized repository whose store holds `sampleList`'s
objects. -/
def sampleRepo : GitRepo :=
  ⟨HISTORY_BRANCH, [(HISTORY_BRANCH, bootCommit)],
    exprObjects sampleList, []⟩

theorem jsSexpToGitSexp_fst (v : JsSexp) :
    ∀ r : GitRepo, (jsSexpToGitSexp v r).1 = encodeP v := by
  induction v with
  | null => intro r; rfl
  | atom s => intro r; rfl
  | cons a d iha ihd =>
      intro r
      simp only [jsSexpToGitSexp, encodeP, writeGitSexpCons, writeTree]
      rw [iha, ihd]

theorem decode_encodeP (v : JsSexp) : gitSexpToJsSexp (encodeP v) = v := by
  induction v with
  | null => rfl
  | atom s => rfl
  | cons a d iha ihd =>
      simp only [encodeP, gitSexpToJsSexp, iha, ihd]

/-- C1: for every finite, acyclic value `v` (null, a string, or a nested
two-element pair of such values), decoding the result of encoding `v`
returns a value equal to `v`:
`gitSexpToJsSexp (jsSexpToGitSexp v) = v`, in any repository state. -/
theorem roundtrip_decode_encode (v : JsSexp) (r : GitRepo) :
    gitSexpToJsSexp (jsSexpToGitSexp v r).1 = v := by
  rw [jsSexpToGitSexp_fst]
  exact decode_encodeP v

theorem encodeP_oid_inj :
    ∀ v1 v2 : JsSexp,
      oidOf (encodeP v1) = oidOf (encodeP v2) → v1 = v2 := by
  intro v1
  induction v1 with
  | null =>
      intro v2 h
      cases v2 with
      | null => rfl
      | atom s => simp [encodeP, oidOf, emptyOid] at h
      | cons a d => simp [encodeP, oidOf, emptyOid, consTreeEntries] at h
  | atom s =>
      intro v2 h
      cases v2 with
      | null => simp [encodeP, oidOf, emptyOid] at h
      | atom t => simp only [encodeP, oidOf, Oid.blob.injEq] at h; rw [h]
      | cons a d => simp [encodeP, oidOf] at h
  | cons a d iha ihd =>
      intro v2 h
      cases v2 with
      | null => simp [encodeP, oidOf, emptyOid, consTreeEntries] at h
      | atom t => simp [encodeP, oidOf] at h
      | cons a2 d2 =>
          simp only [encodeP, oidOf, consTreeEntries] at h
          injection h with h1
          injection h1 with hp hm ht ho hrest
          injection hrest with hp2 hm2 ht2 ho2 hnil
          rw [iha a2 ho, ihd d2 ho2]

/-- C2: the ids produced by encoding two values are equal iff the values
are structurally equal (with the store's `write_leaf`/`write_composite`
modelled as deterministic, injective content hashing), in any pair of
repository states. -/
theorem content_addressing_oid_iff (v1 v2 : JsSexp) (r1 r2 : GitRepo) :
    oidOf (jsSexpToGitSexp v1 r1).1 = oidOf (jsSexpToGitSexp v2 r2).1 ↔
      v1 = v2 := by
  rw [jsSexpToGitSexp_fst, jsSexpToGitSexp_fst]
  constructor
  · exact encodeP_oid_inj v1 v2
  · intro h; rw [h]

/-- C5 counterexample: the chain `("a" . "b")` terminates in an Atom, not
in Empty, so it is not a proper list, yet `consListToStringArray`
succeeds on it and returns `["a", "b"]` — the source's `isJsAtom` base
case returns `[sexp]` for a bare atom tail instead of failing. -/
theorem to_sequence_accepts_atom_tail :
    specIsProperList
        (JsSexp.cons (JsSexp.atom "a") (JsSexp.atom "b")) = false ∧
    consListToStringArray
        (JsSexp.cons (JsSexp.atom "a") (JsSexp.atom "b")) =
      Except.ok ["a", "b"] := by
  decide

/-- C5 amended: `consListToStringArray` fails with `NotAProperList`
exactly when the walked chain reaches a cons whose car is not an Atom; a
chain may terminate in Empty or in a trailing Atom (which is returned as
a final element), and on accepted chains it returns the atom payloads in
order. -/
theorem to_sequence_characterization (s : JsSexp) :
    consListToStringArray s =
      (if atomCarChain s then Except.ok (chainElems s)
       else Except.error GitErr.notAProperList) := by
  induction s with
  | null => rfl
  | atom v => rfl
  | cons a d iha ihd =>
      cases a with
      | null => rfl
      | atom c =>
          simp only [consListToStringArray, atomCarChain, chainElems, ihd]
          cases h : atomCarChain d <;> simp
      | cons x y => rfl

/-- C10 (implicit): `stringArrayToConsList` mutates its argument — the
JavaScript `Array.prototype.reverse` reverses the caller's array in
place, so after the call the array holds the elements in reversed order,
and when the original order was not a palindrome a second call on that
same array object receives different input. -/
theorem from_sequence_mutates_input :
    (∀ a : List String, (stringArrayToConsList a).2 = a.reverse) ∧
    (∀ a : List String,
      a.reverse ≠ a → (stringArrayToConsList a).2 ≠ a) := by
  refine ⟨fun a => rfl, fun a h => ?_⟩
  simpa [stringArrayToConsList] using h

theorem from_sequence_mutates_input_witness :
    ["Hello", "World", "Foo"].reverse ≠ ["Hello", "World", "Foo"] ∧
    (stringArrayToConsList ["Hello", "World", "Foo"]).2 ≠
      ["Hello", "World", "Foo"] :=
  ⟨by decide,
    from_sequence_mutates_input.2 ["Hello", "World", "Foo"] (by decide)⟩

/-- C8: determinism of `from_sequence`.  Building the list
`["Hello", "World", "Foo"]`, encoding it and decoding back through
`to_sequence` returns `["Hello", "World", "Foo"]`, and encoding the same
sequence value a second time — against the store state left by the first
run — yields the identical root id. -/
theorem from_sequence_deterministic :
    consListToStringArray (gitSexpToJsSexp
        (jsSexpToGitSexp
          (stringArrayToConsList ["Hello", "World", "Foo"]).1
          (setupGitSexpRepo initialGitRepo)).1) =
      Except.ok ["Hello", "World", "Foo"] ∧
    oidOf (jsSexpToGitSexp
        (stringArrayToConsList ["Hello", "World", "Foo"]).1
        (jsSexpToGitSexp
          (stringArrayToConsList ["Hello", "World", "Foo"]).1
          (setupGitSexpRepo initialGitRepo)).2).1 =
      oidOf (jsSexpToGitSexp
        (stringArrayToConsList ["Hello", "World", "Foo"]).1
        (setupGitSexpRepo initialGitRepo)).1 := by
  decide

theorem lazyOidOf_classifyEntry (e : TreeEntry) :
    lazyOidOf (classifyEntry e) = e.oid := by
  unfold classifyEntry
  by_cases h1 : e.oid = emptyOid
  · simp [h1, lazyOidOf]
  · by_cases h2 : (e.ty == "blob") = true
    · simp [h1, h2, lazyOidOf]
    · simp [h1, h2, lazyOidOf]

theorem oidDepth_pos (oid : Oid) : 1 ≤ oidDepth oid := by
  cases oid with
  | blob s => exact le_refl 1
  | tree es => exact Nat.succ_le_succ (Nat.zero_le _)

theorem findPath_depth (p : String) :
    ∀ (es : EntryList) (e : TreeEntry), findPath p es = some e →
      oidDepth e.oid ≤ entryDepth es
  | EntryList.nil, e, h => by simp [findPath] at h
  | EntryList.cons q m t o rest, e, h => by
      rw [findPath] at h
      by_cases hq : (q == p) = true
      · rw [if_pos hq] at h
        injection h with h1
        subst h1
        simp only [entryDepth]
        exact le_max_left _ _
      · rw [if_neg hq] at h
        exact le_trans (findPath_depth p rest e h) (le_max_right _ _)

theorem readGitSexpConsLazy_ok (store : List Oid) (oid : Oid)
    (lz : GitSexpExpressionLazy)
    (h : readGitSexpConsLazy store oid = Except.ok lz) :
    ∃ es carE cdrE, oid = Oid.tree es ∧
      findPath "car" es = some carE ∧ findPath "cdr" es = some cdrE ∧
      lz = GitSexpExpressionLazy.consLazy (some (classifyEntry carE))
        (some (classifyEntry cdrE)) oid := by
  by_cases hm : oid ∈ store
  · cases oid with
    | blob s => simp [readGitSexpConsLazy, readObject, hm] at h
    | tree es =>
        by_cases hv : isValidGitSexpConsObject (Oid.tree es) es = true
        · cases hc : findPath "car" es with
          | none =>
              simp [readGitSexpConsLazy, readObject, hm, hv, hc] at h
          | some carE =>
              cases hd : findPath "cdr" es with
              | none =>
                  simp [readGitSexpConsLazy, readObject, hm, hv, hc,
                    hd] at h
              | some cdrE =>
                  simp only [readGitSexpConsLazy, readObject, hm,
                    if_true, reduceIte, hv, if_pos, hc, hd] at h
                  exact ⟨es, carE, cdrE, rfl, hc, hd, by
                    cases h; rfl⟩
        · simp [readGitSexpConsLazy, readObject, hm, hv] at h
  · simp [readGitSexpConsLazy, readObject, hm] at h

theorem readFuel_mono :
    ∀ (fuel : Nat) (store : List Oid) (oid : Oid)
      (res : Except GitErr GitSexpExpression),
      readFuel fuel store oid = some res →
      readFuel (fuel + 1) store oid = some res := by
  intro fuel
  induction fuel with
  | zero => intro store oid res h; simp [readFuel] at h
  | succ f ih =>
      intro store oid res h
      rw [readFuel] at h
      rw [readFuel]
      by_cases he : oid = emptyOid
      · rw [if_pos he] at h ⊢; exact h
      · rw [if_neg he] at h ⊢
        by_cases ha : isGitSexpAtomOid store oid = true
        · rw [if_pos ha] at h ⊢; exact h
        · rw [if_neg ha] at h ⊢
          cases hcl : readGitSexpConsLazy store oid with
          | error e => rw [hcl] at h; exact h
          | ok lz =>
              rw [hcl] at h
              cases lz with
              | empty => exact h
              | atomLazy o2 => exact h
              | consLazy carL cdrL o2 =>
                  try simp only [] at h ⊢
                  cases carL with
                  | none =>
                      try simp only [] at h ⊢
                      cases cdrL with
                      | none => exact h
                      | some dl =>
                          try simp only [] at h ⊢
                          cases hd : readFuel f store (lazyOidOf dl) with
                          | none => rw [hd] at h; exact Option.noConfusion h
                          | some rd =>
                              rw [hd] at h
                              rw [ih store (lazyOidOf dl) rd hd]
                              cases rd with
                              | error e => exact h
                              | ok cdr => exact h
                  | some cl =>
                      try simp only [] at h ⊢
                      cases hc : readFuel f store (lazyOidOf cl) with
                      | none => rw [hc] at h; exact Option.noConfusion h
                      | some rc =>
                          rw [hc] at h
                          rw [ih store (lazyOidOf cl) rc hc]
                          cases rc with
                          | error e => exact h
                          | ok car =>
                              try simp only [] at h ⊢
                              cases cdrL with
                              | none => exact h
                              | some dl =>
                                  try simp only [] at h ⊢
                                  cases hd :
                                      readFuel f store (lazyOidOf dl) with
                                  | none =>
                                      rw [hd] at h
                                      exact Option.noConfusion h
                                  | some rd =>
                                      rw [hd] at h
                                      rw [ih store (lazyOidOf dl) rd hd]
                                      cases rd with
                                      | error e => exact h
                                      | ok cdr => exact h

theorem readFuel_isSome :
    ∀ (fuel : Nat) (store : List Oid) (oid : Oid),
      oidDepth oid ≤ fuel → (readFuel fuel store oid).isSome = true := by
  intro fuel
  induction fuel with
  | zero =>
      intro store oid h
      exact absurd (le_trans (oidDepth_pos oid) h) (by omega)
  | succ f ih =>
      intro store oid hd
      rw [readFuel]
      by_cases he : oid = emptyOid
      · rw [if_pos he]; rfl
      · rw [if_neg he]
        by_cases ha : isGitSexpAtomOid store oid = true
        · rw [if_pos ha]; rfl
        · rw [if_neg ha]
          cases hcl : readGitSexpConsLazy store oid with
          | error e => rfl
          | ok lz =>
              obtain ⟨es, carE, cdrE, hoid, hcar, hcdr, hlz⟩ :=
                readGitSexpConsLazy_ok store oid lz hcl
              have hes : entryDepth es ≤ f := by
                rw [hoid] at hd
                simp only [oidDepth] at hd
                omega
              subst hlz
              try simp only [] 
              have hca : oidDepth (lazyOidOf (classifyEntry carE)) ≤ f := by
                rw [lazyOidOf_classifyEntry]
                exact le_trans (findPath_depth "car" es carE hcar) hes
              have hcd : oidDepth (lazyOidOf (classifyEntry cdrE)) ≤ f := by
                rw [lazyOidOf_classifyEntry]
                exact le_trans (findPath_depth "cdr" es cdrE hcdr) hes
              have h1 := ih store (lazyOidOf (classifyEntry carE)) hca
              cases hc : readFuel f store (lazyOidOf (classifyEntry carE)) with
              | none => rw [hc] at h1; exact absurd h1 (by simp)
              | some rc =>
                  cases rc with
                  | error e => rfl
                  | ok car =>
                      have h2 := ih store (lazyOidOf (classifyEntry cdrE)) hcd
                      cases hdr :
                          readFuel f store (lazyOidOf (classifyEntry cdrE)) with
                      | none => rw [hdr] at h2; exact absurd h2 (by simp)
                      | some rd =>
                          cases rd with
                          | error e => rfl
                          | ok cdr => rfl

/-- C9: `readGitSexpExpression` terminates on every acyclic input — in
the content-addressed model every stored graph is acyclic by
construction, and for any fuel at least the depth of the id's content
tree, the fuelled reader neither exhausts its fuel nor depends on the
fuel: it returns exactly the total function `readGitSexpExpression`'s
result, a fully realized expression or an error. -/
theorem read_terminates (store : List Oid) (oid : Oid) (fuel : Nat)
    (hfuel : oidDepth oid ≤ fuel) :
    readFuel fuel store oid = some (readGitSexpExpression store oid) := by
  have h0 := readFuel_isSome (oidDepth oid) store oid (le_refl _)
  obtain ⟨res, hres⟩ := Option.isSome_iff_exists.mp h0
  have hread : readGitSexpExpression store oid = res := by
    unfold readGitSexpExpression
    rw [hres]
    rfl
  rw [hread]
  obtain ⟨k, rfl⟩ := Nat.exists_eq_add_of_le hfuel
  clear hfuel hread h0
  induction k with
  | zero => exact hres
  | succ n ihn => exact readFuel_mono _ store oid res ihn

theorem read_terminates_witness :
    oidDepth (Oid.blob "x") ≤ 1 ∧
    readFuel 1 [] (Oid.blob "x") =
      some (readGitSexpExpression [] (Oid.blob "x")) :=
  ⟨by decide, read_terminates [] (Oid.blob "x") 1 (by decide)⟩

theorem readFuel_correct (l : GitSexpExpression) (store : List Oid) :
    wfExpr l = true → (∀ o ∈ exprObjects l, o ∈ store) →
    ∀ fuel, oidDepth (oidOf l) ≤ fuel →
      readFuel fuel store (oidOf l) = some (Except.ok l) := by
  induction l with
  | empty =>
      intro _ _ fuel hf
      cases fuel with
      | zero => exact absurd hf (by decide)
      | succ f => simp [readFuel, oidOf]
  | atom v o =>
      intro hwf hobj fuel hf
      have ho : o = Oid.blob v := by simpa [wfExpr] using hwf
      subst ho
      cases fuel with
      | zero => exact absurd hf (by simp [oidOf, oidDepth] at *)
      | succ f =>
          have hmem : Oid.blob v ∈ store := hobj _ (by simp [exprObjects])
          simp only [oidOf]
          rw [readFuel]
          rw [if_neg (by simp [emptyOid])]
          rw [if_pos (by
            simp [isGitSexpAtomOid, readObject, hmem,
              isValidGitSexpAtomObject])]
          simp [readGitSexpAtom, readObject, hmem]
  | cons a d o iha ihd =>
      intro hwf hobj fuel hf
      have hprop : o = Oid.tree (consTreeEntries a d) ∧
          wfExpr a = true ∧ wfExpr d = true := by
        simpa [wfExpr, Bool.and_eq_true, beq_iff_eq] using hwf
      obtain ⟨ho, hwa, hwd⟩ := hprop
      subst ho
      have hmemo : Oid.tree (consTreeEntries a d) ∈ store :=
        hobj _ (by simp [exprObjects])
      have hobja : ∀ ob ∈ exprObjects a, ob ∈ store := by
        intro ob hb; exact hobj ob (by simp [exprObjects, hb])
      have hobjd : ∀ ob ∈ exprObjects d, ob ∈ store := by
        intro ob hb; exact hobj ob (by simp [exprObjects, hb])
      cases fuel with
      | zero =>
          exact absurd (le_trans (oidDepth_pos _) hf) (by omega)
      | succ f =>
          simp only [oidOf] at hf ⊢
          have hfa : oidDepth (oidOf a) ≤ f := by
            simp only [oidDepth, consTreeEntries, entryDepth] at hf
            have := le_max_left (oidDepth (oidOf a))
              (max (oidDepth (oidOf d)) 0)
            omega
          have hfd : oidDepth (oidOf d) ≤ f := by
            simp only [oidDepth, consTreeEntries, entryDepth] at hf
            have h1 := le_max_right (oidDepth (oidOf a))
              (max (oidDepth (oidOf d)) 0)
            have h2 := le_max_left (oidDepth (oidOf d)) 0
            omega
          rw [readFuel]
          rw [if_neg (by simp [emptyOid, consTreeEntries])]
          rw [if_neg (by
            simp [isGitSexpAtomOid, readObject, hmemo,
              isValidGitSexpAtomObject])]
          have h3 : readGitSexpConsLazy store
              (Oid.tree (consTreeEntries a d)) =
              Except.ok (GitSexpExpressionLazy.consLazy
                (some (classifyEntry ⟨"car", (getTypeAndMode a).2,
                  (getTypeAndMode a).1, oidOf a⟩))
                (some (classifyEntry ⟨"cdr", (getTypeAndMode d).2,
                  (getTypeAndMode d).1, oidOf d⟩))
                (Oid.tree (consTreeEntries a d))) := by
            have hm2 := hmemo
            simp only [consTreeEntries] at hm2
            simp [readGitSexpConsLazy, readObject, hmemo, hm2,
              isValidGitSexpConsObject, consTreeEntries, entryLen,
              hasPath, findPath]
          rw [h3]
          simp only [lazyOidOf_classifyEntry]
          rw [iha hwa hobja f hfa, ihd hwd hobjd f hfd]

theorem read_correct (l : GitSexpExpression) (store : List Oid)
    (hwf : wfExpr l = true) (hobj : ∀ o ∈ exprObjects l, o ∈ store) :
    readGitSexpExpression store (oidOf l) = Except.ok l := by
  unfold readGitSexpExpression
  rw [readFuel_correct l store hwf hobj (oidDepth (oidOf l)) (le_refl _)]
  rfl

theorem resolveRef_singleton (c : CommitOid) (r : GitRepo)
    (hbr : r.branches = [(HISTORY_BRANCH, c)]) :
    resolveRef HISTORY_BRANCH r = Except.ok c := by
  simp [resolveRef, hbr]

theorem appendAll_ok (ls : List GitSexpExpression) :
    ∀ (r : GitRepo) (c : CommitOid),
      r.head = HISTORY_BRANCH →
      r.branches = [(HISTORY_BRANCH, c)] →
      appendAll ls r = Except.ok
        { r with branches := [(HISTORY_BRANCH, tipAfter c ls)] } := by
  induction ls with
  | nil =>
      intro r c hh hb
      simp only [appendAll, tipAfter]
      rw [← hb]
  | cons l rest ih =>
      intro r c hh hb
      rw [appendAll, updateBranchHead, resolveRef_singleton c r hb]
      try simp only []
      have hstep : (gitCommit (oidOf l)
          (CommitParents.cons c CommitParents.nil) "Append messages" r).2 =
          { r with branches := [(HISTORY_BRANCH,
              CommitOid.mk (oidOf l)
                (CommitParents.cons c CommitParents.nil)
                "Append messages")] } := by
        simp [gitCommit, setBranch, hh, hb]
      rw [hstep]
      rw [ih { r with branches := [(HISTORY_BRANCH,
            CommitOid.mk (oidOf l)
              (CommitParents.cons c CommitParents.nil)
              "Append messages")] }
          (CommitOid.mk (oidOf l)
            (CommitParents.cons c CommitParents.nil) "Append messages")
          hh rfl]
      rfl

theorem chainOf_parents_nil (c : CommitOid)
    (h : commitParents c = CommitParents.nil) : chainOf c = [c] := by
  cases c with
  | mk t ps m =>
      simp only [commitParents] at h
      subst h
      rfl

theorem chainOf_mk (t : Oid) (ps : CommitParents) (m : String) :
    chainOf (CommitOid.mk t ps m) =
      CommitOid.mk t ps m :: chainOfParents ps := rfl

theorem chainOfParents_cons (p : CommitOid) (rest : CommitParents) :
    chainOfParents (CommitParents.cons p rest) = chainOf p := rfl

theorem chainOf_tipAfter (ls : List GitSexpExpression) :
    ∀ c : CommitOid,
      chainOf (tipAfter c ls) = (newRecs c ls).reverse ++ chainOf c := by
  induction ls with
  | nil => intro c; simp [tipAfter, newRecs]
  | cons l rest ih =>
      intro c
      rw [tipAfter, newRecs, ih, chainOf_mk, chainOfParents_cons]
      simp

theorem newRecs_length (ls : List GitSexpExpression) :
    ∀ c : CommitOid, (newRecs c ls).length = ls.length := by
  induction ls with
  | nil => intro c; rfl
  | cons l rest ih => intro c; simp [newRecs, ih]

theorem newRecs_trees (ls : List GitSexpExpression) :
    ∀ c : CommitOid, (newRecs c ls).map commitTree = ls.map oidOf := by
  induction ls with
  | nil => intro c; rfl
  | cons l rest ih => intro c; simp [newRecs, ih, commitTree]

theorem newRecs_parents (ls : List GitSexpExpression) :
    ∀ (c : CommitOid) (rec : CommitOid), rec ∈ newRecs c ls →
      parentsLen (commitParents rec) = 1 := by
  induction ls with
  | nil => intro c rec h; simp [newRecs] at h
  | cons l rest ih =>
      intro c rec h
      rw [newRecs] at h
      rcases List.mem_cons.mp h with h1 | h2
      · subst h1; rfl
      · exact ih _ rec h2

theorem commitTree_tipAfter :
    ∀ (ls : List GitSexpExpression) (c : CommitOid) (hne : ls ≠ []),
      commitTree (tipAfter c ls) = oidOf (ls.getLast hne)
  | [], _, hne => absurd rfl hne
  | [l], c, _ => rfl
  | l :: l2 :: rest, c, _ => by
      rw [tipAfter, List.getLast_cons (List.cons_ne_nil l2 rest)]
      exact commitTree_tipAfter (l2 :: rest) _ (List.cons_ne_nil l2 rest)

theorem readCommit_fst (c : CommitOid) : (readCommit c).1 = commitTree c := by
  cases c; rfl

theorem self_mem_chainOf (c : CommitOid) : c ∈ chainOf c := by
  cases c
  rw [chainOf_mk]
  exact List.mem_cons_self _ _

/-- C3: starting from an initialized history — the history branch points
at a bootstrap record with no predecessor and the appended lists are
well-formed with their objects present in the store — `n` sequential
`updateBranchHead` calls with lists `L1..Ln` succeed,
`loadHistoryGitSexpList` then returns `Ln`, and the record chain
reachable from the tip has exactly `n + 1` records including the
bootstrap record, whose snapshots read in append order, each record
having at most one predecessor. -/
theorem append_monotonicity (r : GitRepo) (c0 : CommitOid)
    (ls : List GitSexpExpression)
    (hhead : r.head = HISTORY_BRANCH)
    (hbr : r.branches = [(HISTORY_BRANCH, c0)])
    (hboot : commitParents c0 = CommitParents.nil)
    (hne : ls ≠ [])
    (hwf : ∀ l ∈ ls, wfExpr l = true)
    (hobj : ∀ l ∈ ls, ∀ o ∈ exprObjects l, o ∈ r.objects) :
    appendAll ls r = Except.ok
      { r with branches := [(HISTORY_BRANCH, tipAfter c0 ls)] } ∧
    loadHistoryGitSexpList
      { r with branches := [(HISTORY_BRANCH, tipAfter c0 ls)] } =
      Except.ok (ls.getLast hne) ∧
    (chainOf (tipAfter c0 ls)).length = ls.length + 1 ∧
    (chainOf (tipAfter c0 ls)).reverse.map commitTree =
      commitTree c0 :: ls.map oidOf ∧
    ∀ rec ∈ chainOf (tipAfter c0 ls),
      parentsLen (commitParents rec) ≤ 1 := by
  have hlast : ls.getLast hne ∈ ls := List.getLast_mem hne
  refine ⟨appendAll_ok ls r c0 hhead hbr, ?_, ?_, ?_, ?_⟩
  · unfold loadHistoryGitSexpList
    rw [resolveRef_singleton (tipAfter c0 ls) _ rfl]
    try simp only []
    rw [readCommit_fst, commitTree_tipAfter ls c0 hne]
    exact read_correct (ls.getLast hne) r.objects (hwf _ hlast)
      (hobj _ hlast)
  · rw [chainOf_tipAfter, chainOf_parents_nil c0 hboot]
    simp [newRecs_length]
  · rw [chainOf_tipAfter, chainOf_parents_nil c0 hboot]
    simp [newRecs_trees]
  · intro rec hrec
    rw [chainOf_tipAfter, chainOf_parents_nil c0 hboot] at hrec
    rcases List.mem_append.mp hrec with h1 | h2
    · rw [newRecs_parents ls c0 rec (List.mem_reverse.mp h1)]
    · rcases List.mem_singleton.mp h2 with rfl
      rw [hboot]
      exact Nat.zero_le 1

theorem append_monotonicity_witness :
    appendAll [sampleList] sampleRepo = Except.ok { sampleRepo with
      branches := [(HISTORY_BRANCH, tipAfter bootCommit [sampleList])] } ∧
    loadHistoryGitSexpList { sampleRepo with
      branches := [(HISTORY_BRANCH, tipAfter bootCommit [sampleList])] } =
      Except.ok sampleList ∧
    (chainOf (tipAfter bootCommit [sampleList])).length = 1 + 1 ∧
    (chainOf (tipAfter bootCommit [sampleList])).reverse.map commitTree =
      commitTree bootCommit :: [sampleList].map oidOf ∧
    parentsLen (commitParents (tipAfter bootCommit [sampleList])) ≤ 1 := by
  have h := append_monotonicity sampleRepo bootCommit [sampleList]
    rfl rfl rfl (List.cons_ne_nil _ _) (by decide) (by decide)
  exact ⟨h.1, h.2.1, h.2.2.1, h.2.2.2.1,
    h.2.2.2.2 _ (self_mem_chainOf _)⟩

/-- C4: `setupGitSexpRepo` is idempotent.  From an uninitialized state
(no branches, no config) the first call creates exactly one bootstrap
record — the history chain is the single record
`mk emptyOid nil "Initial commit"`, whose snapshot is the Empty tree —
and the second call is a no-op that leaves the whole repository state,
in particular the tip, unchanged (the bootstrap commit is guarded by the
`isRepoEmpty` check). -/
theorem initialize_idempotent (r : GitRepo)
    (hbr : r.branches = []) (hcfg : r.config = []) :
    setupGitSexpRepo (setupGitSexpRepo r) = setupGitSexpRepo r ∧
    resolveRef HISTORY_BRANCH (setupGitSexpRepo r) =
      Except.ok bootCommit ∧
    commitTree bootCommit = emptyOid ∧
    chainOf bootCommit = [bootCommit] := by
  obtain ⟨hh, b, o, cfg⟩ := r
  simp only [] at hbr hcfg
  subst hbr
  subst hcfg
  refine ⟨?_, ?_, rfl, rfl⟩
  · simp [setupGitSexpRepo, gitInit, setConfig, isRepoEmpty,
      listBranches, gitCommit, setBranch, HISTORY_BRANCH]
  · simp [setupGitSexpRepo, gitInit, setConfig, isRepoEmpty,
      listBranches, gitCommit, setBranch, resolveRef, HISTORY_BRANCH,
      bootCommit, emptyOid]

theorem initialize_idempotent_witness :
    setupGitSexpRepo (setupGitSexpRepo initialGitRepo) =
      setupGitSexpRepo initialGitRepo ∧
    resolveRef HISTORY_BRANCH (setupGitSexpRepo initialGitRepo) =
      Except.ok bootCommit ∧
    commitTree bootCommit = emptyOid ∧
    chainOf bootCommit = [bootCommit] :=
  initialize_idempotent initialGitRepo rfl rfl

/-- C6 counterexample: `isValidGitSexpConsObject` checks the presence of
the "car" and "cdr" entries with `Array.prototype.some` and never their
order, so a stored composite whose two entries come as "cdr" first and
"car" second — NOT the fixed car-then-cdr order the claim requires — is
accepted: `readGitSexpExpression` succeeds on it (returning the cons of
the two children) instead of failing with `InvalidObject`. -/
theorem read_accepts_swapped_car_cdr :
    readGitSexpExpression
      [Oid.tree (EntryList.cons "cdr" "040000" "tree" emptyOid
        (EntryList.cons "car" "040000" "tree" emptyOid EntryList.nil))]
      (Oid.tree (EntryList.cons "cdr" "040000" "tree" emptyOid
        (EntryList.cons "car" "040000" "tree" emptyOid EntryList.nil))) =
    Except.ok (GitSexpExpression.cons GitSexpExpression.empty
      GitSexpExpression.empty
      (Oid.tree (EntryList.cons "cdr" "040000" "tree" emptyOid
        (EntryList.cons "car" "040000" "tree" emptyOid
          EntryList.nil)))) := by
  decide

/-- C6 amended: for every id other than the Empty id whose stored object
is a tree, `readGitSexpExpression` fails with `InvalidObject` whenever
the tree does not consist of exactly two entries whose names include
"car" and "cdr" — in either order, since the source's validation does not
check the order; in particular a composite whose entries are named
"foo"/"bar" is rejected.  (Stored blobs always validate as atom
leaves.) -/
theorem read_invalid_shape_rejected (store : List Oid) (es : EntryList)
    (hmem : Oid.tree es ∈ store)
    (hne : es ≠ EntryList.nil)
    (hshape : ¬ (entryLen es = 2 ∧ hasPath "car" es = true ∧
      hasPath "cdr" es = true)) :
    readGitSexpExpression store (Oid.tree es) =
      Except.error GitErr.invalidObject := by
  unfold readGitSexpExpression
  have hd : oidDepth (Oid.tree es) = entryDepth es + 1 := rfl
  rw [hd, readFuel]
  rw [if_neg (by simp only [emptyOid, Oid.tree.injEq]; exact hne)]
  rw [if_neg (by
    simp [isGitSexpAtomOid, readObject, hmem, isValidGitSexpAtomObject])]
  have hval : isValidGitSexpConsObject (Oid.tree es) es = false := by
    cases hbv : isValidGitSexpConsObject (Oid.tree es) es with
    | false => rfl
    | true =>
        exfalso
        apply hshape
        simpa [isValidGitSexpConsObject, Bool.and_eq_true,
          beq_iff_eq] using hbv
  have h3 : readGitSexpConsLazy store (Oid.tree es) =
      Except.error GitErr.invalidObject := by
    simp [readGitSexpConsLazy, readObject, hmem, hval]
  rw [h3]
  rfl

theorem read_invalid_shape_rejected_witness :
    readGitSexpExpression
      [Oid.tree (EntryList.cons "foo" "040000" "tree" emptyOid
        (EntryList.cons "bar" "040000" "tree" emptyOid EntryList.nil))]
      (Oid.tree (EntryList.cons "foo" "040000" "tree" emptyOid
        (EntryList.cons "bar" "040000" "tree" emptyOid EntryList.nil))) =
      Except.error GitErr.invalidObject :=
  read_invalid_shape_rejected _ _ (by simp) (by decide) (by decide)

theorem mem_addObject (x o : Oid) (r : GitRepo) :
    o ∈ (addObject x r).objects ↔ (o = x ∨ o ∈ r.objects) := by
  unfold addObject
  by_cases hx : x ∈ r.objects
  · rw [if_pos hx]
    constructor
    · exact fun h => Or.inr h
    · rintro (rfl | h)
      · exact hx
      · exact h
  · rw [if_neg hx]
    simp [List.mem_cons]

theorem depth_lt_consTree (car cdr : GitSexpExpression) :
    oidDepth (oidOf cdr) <
      oidDepth (Oid.tree (consTreeEntries car cdr)) := by
  simp only [oidDepth, consTreeEntries, entryDepth]
  have h1 := le_max_left (oidDepth (oidOf cdr)) 0
  have h2 := le_max_right (oidDepth (oidOf car))
    (max (oidDepth (oidOf cdr)) 0)
  omega

theorem consTree_ne_cdr (car cdr : GitSexpExpression) :
    Oid.tree (consTreeEntries car cdr) ≠ oidOf cdr := by
  intro h
  have hlt := depth_lt_consTree car cdr
  rw [← h] at hlt
  exact lt_irrefl _ hlt

/-- C7: `consStringOntoGitSexpExpression s L` writes exactly one new
Atom (the blob of `s`) and one new Cons whose cdr is `L`'s existing
root: the returned expression is that cons, its root id is distinct from
`L`'s, the store after the call holds exactly the old objects plus those
two, `to_sequence` of the result is `s` followed by `to_sequence L`, and
`L` itself is unaltered — reading its root from the new store still
yields `L`. -/
theorem prepend_frame (s : String) (L : GitSexpExpression) (r : GitRepo)
    (xs : List String)
    (hwf : wfExpr L = true)
    (hobj : ∀ o ∈ exprObjects L, o ∈ r.objects)
    (hseq : consListToStringArray (gitSexpToJsSexp L) = Except.ok xs) :
    (consStringOntoGitSexpExpression s L r).1 =
      GitSexpExpression.cons (GitSexpExpression.atom s (Oid.blob s)) L
        (Oid.tree (consTreeEntries
          (GitSexpExpression.atom s (Oid.blob s)) L)) ∧
    oidOf (consStringOntoGitSexpExpression s L r).1 ≠ oidOf L ∧
    (∀ o : Oid, o ∈ (consStringOntoGitSexpExpression s L r).2.objects ↔
      (o = Oid.tree (consTreeEntries
          (GitSexpExpression.atom s (Oid.blob s)) L) ∨
        o = Oid.blob s ∨ o ∈ r.objects)) ∧
    consListToStringArray
        (gitSexpToJsSexp (consStringOntoGitSexpExpression s L r).1) =
      Except.ok (s :: xs) ∧
    readGitSexpExpression
        (consStringOntoGitSexpExpression s L r).2.objects (oidOf L) =
      Except.ok L := by
  refine ⟨rfl, ?_, ?_, ?_, ?_⟩
  · exact consTree_ne_cdr (GitSexpExpression.atom s (Oid.blob s)) L
  · intro o
    show o ∈ (addObject (Oid.tree (consTreeEntries
        (GitSexpExpression.atom s (Oid.blob s)) L))
        (addObject (Oid.blob s) r)).objects ↔ _
    rw [mem_addObject, mem_addObject]
  · show consListToStringArray
        (JsSexp.cons (JsSexp.atom s) (gitSexpToJsSexp L)) =
      Except.ok (s :: xs)
    simp [consListToStringArray, hseq]
  · have hsub : ∀ o ∈ exprObjects L,
        o ∈ (consStringOntoGitSexpExpression s L r).2.objects := by
      intro o ho
      show o ∈ (addObject (Oid.tree (consTreeEntries
          (GitSexpExpression.atom s (Oid.blob s)) L))
          (addObject (Oid.blob s) r)).objects
      rw [mem_addObject, mem_addObject]
      exact Or.inr (Or.inr (hobj o ho))
    exact read_correct L _ hwf hsub

theorem prepend_frame_witness :
    (consStringOntoGitSexpExpression "X" sampleList sampleRepo).1 =
      GitSexpExpression.cons
        (GitSexpExpression.atom "X" (Oid.blob "X")) sampleList
        (Oid.tree (consTreeEntries
          (GitSexpExpression.atom "X" (Oid.blob "X")) sampleList)) ∧
    oidOf (consStringOntoGitSexpExpression "X" sampleList sampleRepo).1 ≠
      oidOf sampleList ∧
    (Oid.blob "X" ∈ (consStringOntoGitSexpExpression "X" sampleList
        sampleRepo).2.objects ↔
      (Oid.blob "X" = Oid.tree (consTreeEntries
          (GitSexpExpression.atom "X" (Oid.blob "X")) sampleList) ∨
        Oid.blob "X" = Oid.blob "X" ∨
        Oid.blob "X" ∈ sampleRepo.objects)) ∧
    consListToStringArray (gitSexpToJsSexp
        (consStringOntoGitSexpExpression "X" sampleList sampleRepo).1) =
      Except.ok ("X" :: ["A", "B"]) ∧
    readGitSexpExpression (consStringOntoGitSexpExpression "X" sampleList
        sampleRepo).2.objects (oidOf sampleList) =
      Except.ok sampleList := by
  have h := prepend_frame "X" sampleList sampleRepo ["A", "B"]
    (by decide) (by decide) (by decide)
  exact ⟨h.1, h.2.1, h.2.2.1 (Oid.blob "X"), h.2.2.2.1, h.2.2.2.2⟩
